import Mathlib

set_option linter.unusedSectionVars false
set_option linter.unusedVariables false

/-!
# Verification of `rustls/src/limited_cache.rs` (`LimitedCache`)

Shallow embedding of the bounded insertion-order cache `LimitedCache<K, V>`:

* the `HashMap<K, V>` field `map` is modelled as an association list
  `List (K × V)` (lookup finds the first entry with the given key; a
  `HashMap` never holds two entries with the same key, and all reachable
  states of the model keep the key column duplicate-free);
* the `VecDeque<K>` field `oldest` is modelled as a `List K` whose head is
  the front of the queue (the oldest key);
* the queue's reserved backing capacity (`VecDeque::capacity()`) is carried
  as a field `cap : Nat`.  `VecDeque::with_capacity` reserves at least one
  slot and at least the requested hint, and under the cache's eviction
  discipline a push never happens while the queue is full (proved below for
  every reachable state with `1 ≤ cap`), so the reservation never grows and
  modelling it as a constant field is faithful for every cache whose
  effective reserved capacity is at least 1.

Each operation is translated line by line from the Rust source.
-/

/-- The cache state: the fields `map: HashMap<K, V>` and
`oldest: VecDeque<K>` of `struct LimitedCache<K, V>`, together with the
queue's reserved capacity. -/
structure LimitedCache (K : Type) (V : Type) where
  map : List (K × V)
  oldest : List K
  cap : Nat
  deriving Repr, DecidableEq

namespace LimitedCache

variable {K V : Type} [DecidableEq K]

/-- `HashMap::get` on the association-list model: first entry whose key
matches. -/
def mapGet (m : List (K × V)) (k : K) : Option V :=
  match m with
  | [] => none
  | (k', v) :: rest => if k' = k then some v else mapGet rest k

/-- `Entry::Occupied(mut old) => old.insert(v)`: replace the value stored at
the (first) entry for `k`, keeping the stored key and every other entry. -/
def replaceValue (m : List (K × V)) (k : K) (v : V) : List (K × V) :=
  match m with
  | [] => []
  | (k', v') :: rest =>
      if k' = k then (k', v) :: rest else (k', v') :: replaceValue rest k v

/-- `HashMap::remove(&k)`: drop the (first) entry for `k`, if any. -/
def removeKey (m : List (K × V)) (k : K) : List (K × V) :=
  match m with
  | [] => []
  | (k', v') :: rest =>
      if k' = k then rest else (k', v') :: removeKey rest k

/-- `self.oldest.iter().position(|item| item == k)` followed by
`self.oldest.remove(index)`: remove the first occurrence of `k`, keeping
the relative order of the remaining elements; no occurrence means no
change. -/
def removeFirst (l : List K) (k : K) : List K :=
  match l with
  | [] => []
  | x :: rest => if x = k then rest else x :: removeFirst rest k

/-- `LimitedCache::new(capacity_order_of_magnitude)`: empty map and queue;
`cap` is the effective reserved capacity of the `VecDeque` (at least the
hint, possibly rounded up by the allocator). -/
def new (cap : Nat) : LimitedCache K V :=
  { map := [], oldest := [], cap := cap }

/-- `LimitedCache::insert(k, v)`:

* occupied entry: replace the value, `inserted_new_item = false`, so the
  eviction check is skipped;
* vacant entry: push the key on the back of `oldest` and add the pair to
  the map, `inserted_new_item = true`; then, if the queue's length has
  reached its reserved capacity, pop the front of `oldest` (when the queue
  is nonempty) and remove that key from the map. -/
def insert (s : LimitedCache K V) (k : K) (v : V) : LimitedCache K V :=
  match mapGet s.map k with
  | some _ =>
      -- nb. does not freshen entry in `oldest`
      { s with map := replaceValue s.map k v }
  | none =>
      let oldest1 := s.oldest ++ [k]
      let map1 := s.map ++ [(k, v)]
      -- ensure next insert() does not require a realloc
      if oldest1.length = s.cap then
        match oldest1 with
        | [] => { map := map1, oldest := ([] : List K), cap := s.cap }
        | kOld :: rest =>
            { map := removeKey map1 kOld, oldest := rest, cap := s.cap }
      else { map := map1, oldest := oldest1, cap := s.cap }

/-- `LimitedCache::get(&k)`: `self.map.get(k)`; takes `&self`, so the state
is untouched. -/
def get (s : LimitedCache K V) (k : K) : Option V :=
  mapGet s.map k

/-- `LimitedCache::remove(&k)`: on a map hit, remove the entry from the map
and the first matching key from the queue, returning the value; on a miss,
return `none` and leave the state unchanged.  The returned pair is
(result, state after the call). -/
def remove (s : LimitedCache K V) (k : K) : Option V × LimitedCache K V :=
  match mapGet s.map k with
  | some v =>
      (some v,
        { s with map := removeKey s.map k, oldest := removeFirst s.oldest k })
  | none => (none, s)

/-- One client-visible operation on the cache. -/
inductive Op (K V : Type) where
  | insert (k : K) (v : V)
  | get (k : K)
  | remove (k : K)
  deriving Repr, DecidableEq

/-- State transition of one operation: `insert` mutates via
`LimitedCache.insert`, `get` takes `&self` and cannot change the state,
`remove` keeps the state component of `LimitedCache.remove`. -/
def applyOp (s : LimitedCache K V) : Op K V → LimitedCache K V
  | Op.insert k v => s.insert k v
  | Op.get _ => s
  | Op.remove k => (s.remove k).2

/-- Run a whole sequence of operations from a freshly constructed cache
whose queue reserved capacity is `cap`. -/
def run (cap : Nat) (ops : List (Op K V)) : LimitedCache K V :=
  ops.foldl applyOp (new cap)

/-- A state is reachable when some operation sequence from some
construction produces it. -/
def Reachable (s : LimitedCache K V) : Prop :=
  ∃ c : Nat, ∃ ops : List (Op K V), s = run c ops

/-- Folding only inserts (used to state the pure-insertion claims). -/
def insertAll (s : LimitedCache K V) (kvs : List (K × V)) : LimitedCache K V :=
  kvs.foldl (fun t p => t.insert p.1 p.2) s

/-- The Rust `VecDeque` grows exactly when a push arrives while
`len == capacity`; an insert forces such a growth precisely when the key is
new (vacant entry, hence a `push_back`) and the queue is already full. -/
def insertForcesGrow (s : LimitedCache K V) (k : K) : Prop :=
  mapGet s.map k = none ∧ s.oldest.length = s.cap

instance (s : LimitedCache K V) (k : K) : Decidable (insertForcesGrow s k) :=
  decidable_of_iff ((mapGet s.map k).isNone = true ∧ s.oldest.length = s.cap)
    (by unfold insertForcesGrow; rw [Option.isNone_iff_eq_none])

/-- Internal well-formedness: the key column of the map IS the order queue
(same keys in the same order), the queue is duplicate-free, and — as soon
as at least one slot is reserved — the queue is strictly below its
reserved capacity. -/
def Inv (s : LimitedCache K V) : Prop :=
  s.map.map Prod.fst = s.oldest ∧ s.oldest.Nodup ∧
    (1 ≤ s.cap → s.oldest.length < s.cap)

/-! ## Lemmas about the association-list model of `HashMap` -/

theorem mapGet_eq_none_iff (m : List (K × V)) (k : K) :
    mapGet m k = none ↔ k ∉ m.map Prod.fst := by
  induction m with
  | nil => simp [mapGet]
  | cons p rest ih =>
      obtain ⟨k', v⟩ := p
      by_cases hk : k' = k
      · subst hk; simp [mapGet]
      · simp [mapGet, hk, ih, Ne.symm hk]

theorem mapGet_mem (m : List (K × V)) (k : K) (v : V) (h : mapGet m k = some v) :
    (k, v) ∈ m := by
  induction m with
  | nil => simp [mapGet] at h
  | cons p rest ih =>
      obtain ⟨k', v'⟩ := p
      by_cases hk : k' = k
      · subst hk
        simp [mapGet] at h
        simp [h]
      · simp [mapGet, hk] at h
        exact List.mem_cons_of_mem _ (ih h)

theorem mem_mapGet (m : List (K × V)) (k : K) (v : V)
    (hnd : (m.map Prod.fst).Nodup) (h : (k, v) ∈ m) : mapGet m k = some v := by
  induction m with
  | nil => simp at h
  | cons p rest ih =>
      obtain ⟨k', v'⟩ := p
      rw [List.map_cons, List.nodup_cons] at hnd
      rcases List.mem_cons.mp h with heq | hmem
      · rw [Prod.mk.injEq] at heq
        simp [mapGet, heq.1, heq.2]
      · by_cases hk : k' = k
        · subst hk
          exact absurd (by simpa using List.mem_map_of_mem Prod.fst hmem) hnd.1
        · simp only [mapGet, hk, if_false]
          exact ih hnd.2 hmem

theorem keys_replaceValue (m : List (K × V)) (k : K) (v : V) :
    (replaceValue m k v).map Prod.fst = m.map Prod.fst := by
  induction m with
  | nil => rfl
  | cons p rest ih =>
      obtain ⟨k', v'⟩ := p
      by_cases hk : k' = k <;> simp [replaceValue, hk, ih]

theorem mapGet_replaceValue_self (m : List (K × V)) (k : K) (v : V)
    (hk : k ∈ m.map Prod.fst) : mapGet (replaceValue m k v) k = some v := by
  induction m with
  | nil => simp at hk
  | cons p rest ih =>
      obtain ⟨k', v'⟩ := p
      by_cases h : k' = k
      · subst h; simp [replaceValue, mapGet]
      · simp only [replaceValue, h, if_false, mapGet]
        apply ih
        rcases (by simpa using hk : k = k' ∨ k ∈ rest.map Prod.fst) with h1 | h2
        · exact absurd h1.symm h
        · exact h2

theorem mapGet_replaceValue_ne (m : List (K × V)) (k k' : K) (v : V)
    (h : k' ≠ k) : mapGet (replaceValue m k v) k' = mapGet m k' := by
  induction m with
  | nil => rfl
  | cons p rest ih =>
      obtain ⟨k0, v0⟩ := p
      by_cases h0 : k0 = k
      · subst h0
        simp [replaceValue, mapGet, Ne.symm h]
      · simp [replaceValue, mapGet, h0, ih]

theorem keys_removeKey (m : List (K × V)) (k : K) :
    (removeKey m k).map Prod.fst = removeFirst (m.map Prod.fst) k := by
  induction m with
  | nil => rfl
  | cons p rest ih =>
      obtain ⟨k', v'⟩ := p
      by_cases hk : k' = k <;> simp [removeKey, removeFirst, hk, ih]

theorem mapGet_removeKey_ne (m : List (K × V)) (k k' : K) (h : k' ≠ k) :
    mapGet (removeKey m k) k' = mapGet m k' := by
  induction m with
  | nil => rfl
  | cons p rest ih =>
      obtain ⟨k0, v0⟩ := p
      by_cases h0 : k0 = k
      · subst h0
        simp [removeKey, mapGet, Ne.symm h]
      · simp [removeKey, mapGet, h0, ih]

theorem removeFirst_of_not_mem (l : List K) (k : K) (h : k ∉ l) :
    removeFirst l k = l := by
  induction l with
  | nil => rfl
  | cons x rest ih =>
      rw [List.mem_cons, not_or] at h
      simp [removeFirst, Ne.symm h.1, ih h.2]

theorem removeFirst_sublist (l : List K) (k : K) :
    (removeFirst l k).Sublist l := by
  induction l with
  | nil => simp [removeFirst]
  | cons x rest ih =>
      by_cases h : x = k
      · simp [removeFirst, h]
      · simpa [removeFirst, h] using ih.cons₂ x

theorem nodup_removeFirst (l : List K) (k : K) (hnd : l.Nodup) :
    (removeFirst l k).Nodup :=
  (removeFirst_sublist l k).nodup hnd

theorem length_removeFirst_le (l : List K) (k : K) :
    (removeFirst l k).length ≤ l.length :=
  (removeFirst_sublist l k).length_le

theorem not_mem_removeFirst (l : List K) (k : K) (hnd : l.Nodup) :
    k ∉ removeFirst l k := by
  induction l with
  | nil => simp [removeFirst]
  | cons x rest ih =>
      rcases List.nodup_cons.mp hnd with ⟨hx, hrest⟩
      by_cases h : x = k
      · subst h; simpa [removeFirst] using hx
      · simp only [removeFirst, h, if_false, List.mem_cons, not_or]
        exact ⟨fun heq => h heq.symm, ih hrest⟩

theorem removeFirst_append_cons (pre post : List K) (k : K) (h : k ∉ pre) :
    removeFirst (pre ++ k :: post) k = pre ++ post := by
  induction pre with
  | nil => simp [removeFirst]
  | cons x rest ih =>
      rw [List.mem_cons, not_or] at h
      simp [removeFirst, Ne.symm h.1, ih h.2]

theorem removeKey_of_keys_cons (m : List (K × V)) (k0 : K) (t : List K)
    (h : m.map Prod.fst = k0 :: t) : removeKey m k0 = m.tail := by
  cases m with
  | nil => simp at h
  | cons p rest =>
      obtain ⟨k', v'⟩ := p
      rw [List.map_cons, List.cons.injEq] at h
      have h1 : k' = k0 := h.1
      subst h1
      simp [removeKey]

/-! ## Shape of `insert` -/

theorem insert_occupied (s : LimitedCache K V) (k : K) (v w : V)
    (h : mapGet s.map k = some w) :
    s.insert k v = { s with map := replaceValue s.map k v } := by
  simp [insert, h]

theorem insert_new_cases (s : LimitedCache K V) (k : K) (v : V)
    (h : mapGet s.map k = none) :
    (s.oldest.length + 1 ≠ s.cap ∧
       s.insert k v =
         { map := s.map ++ [(k, v)], oldest := s.oldest ++ [k], cap := s.cap }) ∨
    (s.oldest.length + 1 = s.cap ∧ ∃ kOld rest, s.oldest ++ [k] = kOld :: rest ∧
       s.insert k v =
         { map := removeKey (s.map ++ [(k, v)]) kOld, oldest := rest,
           cap := s.cap }) := by
  obtain ⟨m, q, c⟩ := s
  simp only at h ⊢
  by_cases hlen : q.length + 1 = c
  · right
    refine ⟨hlen, ?_⟩
    cases q with
    | nil =>
        refine ⟨k, [], rfl, ?_⟩
        simp only [List.length_nil] at hlen
        have hc : (1 : Nat) = c := by omega
        simp [insert, h, hc.symm]
    | cons k0 t =>
        refine ⟨k0, t ++ [k], rfl, ?_⟩
        simp only [List.length_cons] at hlen
        have hc : t.length + 1 + 1 = c := by omega
        simp [insert, h, hc]
  · left
    refine ⟨hlen, ?_⟩
    simp [insert, h, hlen]

theorem cap_insert (s : LimitedCache K V) (k : K) (v : V) :
    (s.insert k v).cap = s.cap := by
  cases hmk : mapGet s.map k with
  | some w => rw [insert_occupied s k v w hmk]
  | none =>
      rcases insert_new_cases s k v hmk with ⟨_, heq⟩ | ⟨_, _, _, _, heq⟩ <;>
        rw [heq]

theorem remove_miss (s : LimitedCache K V) (k : K)
    (h : mapGet s.map k = none) : s.remove k = (none, s) := by
  simp [remove, h]

theorem remove_hit (s : LimitedCache K V) (k : K) (v : V)
    (h : mapGet s.map k = some v) :
    s.remove k =
      (some v,
        { s with map := removeKey s.map k,
                 oldest := removeFirst s.oldest k }) := by
  simp [remove, h]

theorem cap_applyOp (s : LimitedCache K V) (op : Op K V) :
    (applyOp s op).cap = s.cap := by
  cases op with
  | insert k v => exact cap_insert s k v
  | get k => rfl
  | remove k =>
      show (s.remove k).2.cap = s.cap
      cases hmk : mapGet s.map k with
      | some w => rw [remove_hit s k w hmk]
      | none => rw [remove_miss s k hmk]

/-! ## The reachable-state invariant -/

theorem inv_new (c : Nat) : Inv (new c : LimitedCache K V) :=
  ⟨rfl, List.nodup_nil, fun h => h⟩

theorem inv_insert (s : LimitedCache K V) (k : K) (v : V) (hs : Inv s) :
    Inv (s.insert k v) := by
  obtain ⟨hkeys, hnd, hlen⟩ := hs
  cases hmk : mapGet s.map k with
  | some w =>
      rw [insert_occupied s k v w hmk]
      exact ⟨by simpa [keys_replaceValue] using hkeys, hnd, hlen⟩
  | none =>
      have hknotin : k ∉ s.oldest := by
        rw [← hkeys]; exact (mapGet_eq_none_iff s.map k).mp hmk
      have hnd1 : (s.oldest ++ [k]).Nodup := by
        simp [List.nodup_append, hnd, hknotin]
      rcases insert_new_cases s k v hmk with ⟨hne, heq⟩ |
        ⟨hcap, kOld, rest, hq, heq⟩
      · rw [heq]
        refine ⟨by simp [hkeys], hnd1, ?_⟩
        intro h1
        have h2 : 1 ≤ s.cap → s.oldest.length < s.cap := hlen
        simp only [List.length_append, List.length_cons, List.length_nil]
        have := h2 h1
        omega
      · rw [heq]
        have hkeys1 : (s.map ++ [(k, v)]).map Prod.fst = kOld :: rest := by
          rw [List.map_append, hkeys]; exact hq
        have hndq : (kOld :: rest).Nodup := hq ▸ hnd1
        refine ⟨?_, hndq.of_cons, ?_⟩
        · rw [keys_removeKey, hkeys1]
          simp [removeFirst]
        · intro _
          show rest.length < s.cap
          have hlq : (s.oldest ++ [k]).length = rest.length + 1 := by
            rw [hq]; rfl
          simp only [List.length_append, List.length_cons,
            List.length_nil] at hlq
          omega

theorem inv_remove (s : LimitedCache K V) (k : K) (hs : Inv s) :
    Inv (s.remove k).2 := by
  obtain ⟨hkeys, hnd, hlen⟩ := hs
  cases hmk : mapGet s.map k with
  | none => rw [remove_miss s k hmk]; exact ⟨hkeys, hnd, hlen⟩
  | some v =>
      rw [remove_hit s k v hmk]
      refine ⟨?_, nodup_removeFirst _ _ hnd, ?_⟩
      · simp only
        rw [keys_removeKey, hkeys]
      · intro h1
        exact lt_of_le_of_lt (length_removeFirst_le _ _) (hlen h1)

theorem inv_applyOp (s : LimitedCache K V) (op : Op K V) (hs : Inv s) :
    Inv (applyOp s op) := by
  cases op with
  | insert k v => exact inv_insert s k v hs
  | get k => exact hs
  | remove k => exact inv_remove s k hs

theorem inv_foldl (ops : List (Op K V)) :
    ∀ s : LimitedCache K V, Inv s → Inv (ops.foldl applyOp s) := by
  induction ops with
  | nil => exact fun s hs => hs
  | cons op rest ih => exact fun s hs => ih _ (inv_applyOp s op hs)

theorem inv_run (c : Nat) (ops : List (Op K V)) : Inv (run c ops) :=
  inv_foldl ops (new c) (inv_new c)

theorem inv_reachable (s : LimitedCache K V) (h : Reachable s) : Inv s := by
  obtain ⟨c, ops, rfl⟩ := h
  exact inv_run c ops

theorem cap_foldl (ops : List (Op K V)) :
    ∀ s : LimitedCache K V, (ops.foldl applyOp s).cap = s.cap := by
  induction ops with
  | nil => exact fun _ => rfl
  | cons op rest ih =>
      intro s
      rw [List.foldl_cons, ih (applyOp s op), cap_applyOp]

theorem cap_run (c : Nat) (ops : List (Op K V)) : (run c ops).cap = c :=
  cap_foldl ops (new c)

/-! ## Further helper lemmas -/

theorem mapGet_keys_exists (m : List (K × V)) (k : K)
    (h : k ∈ m.map Prod.fst) : ∃ v, mapGet m k = some v := by
  cases hm : mapGet m k with
  | none => exact absurd h ((mapGet_eq_none_iff m k).mp hm)
  | some v => exact ⟨v, rfl⟩

theorem mem_keys_of_mapGet (m : List (K × V)) (k : K) (v : V)
    (h : mapGet m k = some v) : k ∈ m.map Prod.fst := by
  by_contra hk
  rw [← mapGet_eq_none_iff] at hk
  rw [hk] at h
  cases h

theorem length_replaceValue (m : List (K × V)) (k : K) (v : V) :
    (replaceValue m k v).length = m.length := by
  rw [← List.length_map (replaceValue m k v) Prod.fst, keys_replaceValue,
    List.length_map]

theorem mapGet_append_right (m m2 : List (K × V)) (k : K)
    (h : mapGet m k = none) : mapGet (m ++ m2) k = mapGet m2 k := by
  induction m with
  | nil => rfl
  | cons p rest ih =>
      obtain ⟨k', v'⟩ := p
      by_cases hk : k' = k
      · simp [mapGet, hk] at h
      · simp only [mapGet, hk, if_false] at h
        simp only [List.cons_append, mapGet, hk, if_false]
        exact ih h

theorem drop_one_append (l r : List (K × V)) (h : l ≠ []) :
    List.drop 1 l ++ r = List.drop 1 (l ++ r) := by
  cases l with
  | nil => exact absurd rfl h
  | cons x xs => simp

theorem insertAll_cons (s : LimitedCache K V) (p : K × V)
    (kvs : List (K × V)) :
    insertAll s (p :: kvs) = insertAll (s.insert p.1 p.2) kvs := rfl

theorem insertAll_eq_run (c : Nat) (kvs : List (K × V)) :
    insertAll (new c) kvs =
      run c (kvs.map fun p => Op.insert p.1 p.2) := by
  rw [run, List.foldl_map]
  rfl

/-- Inserting a list of fresh, pairwise-distinct keys into a well-formed
cache keeps exactly the most recent entries: the final map is the suffix of
`s.map ++ kvs` obtained by dropping everything the successive front
evictions removed. -/
theorem insertAll_fresh (kvs : List (K × V)) :
    ∀ s : LimitedCache K V, 1 ≤ s.cap →
      s.map.map Prod.fst = s.oldest →
      (s.oldest ++ kvs.map Prod.fst).Nodup →
      s.oldest.length < s.cap →
      (insertAll s kvs).map =
        (s.map ++ kvs).drop (s.map.length + kvs.length + 1 - s.cap) := by
  induction kvs with
  | nil =>
      intro s hc hkeys hnd hlen
      have hmlen : s.map.length = s.oldest.length := by
        rw [← hkeys, List.length_map]
      have hidx : s.map.length + ([] : List (K × V)).length + 1 - s.cap = 0 := by
        simp only [List.length_nil]
        omega
      rw [hidx, List.drop_zero, List.append_nil]
      rfl
  | cons p rest ih =>
      intro s hc hkeys hnd hlen
      obtain ⟨k, v⟩ := p
      rw [List.map_cons] at hnd
      have hndparts := hnd
      rw [List.nodup_append] at hndparts
      obtain ⟨hndold, hndrest, hdisj⟩ := hndparts
      have hknotin : k ∉ s.oldest := fun hk =>
        hdisj hk (List.mem_cons_self k _)
      have hmk : mapGet s.map k = none := by
        rw [mapGet_eq_none_iff, hkeys]
        exact hknotin
      have hmlen : s.map.length = s.oldest.length := by
        rw [← hkeys, List.length_map]
      show (insertAll (s.insert k v) rest).map =
        (s.map ++ (k, v) :: rest).drop
          (s.map.length + ((k, v) :: rest).length + 1 - s.cap)
      rcases insert_new_cases s k v hmk with ⟨hne, heq⟩ |
        ⟨hcap1, kOld, restQ, hq, heq⟩
      · rw [heq]
        have hkeys' : (s.map ++ [(k, v)]).map Prod.fst = s.oldest ++ [k] := by
          rw [List.map_append, hkeys]
          rfl
        have hnd' : ((s.oldest ++ [k]) ++ rest.map Prod.fst).Nodup := by
          rw [List.append_assoc, List.singleton_append]
          exact hnd
        have hlen' : (s.oldest ++ [k]).length < s.cap := by
          rw [List.length_append, List.length_cons, List.length_nil]
          omega
        have ihres := ih ⟨s.map ++ [(k, v)], s.oldest ++ [k], s.cap⟩ hc
          hkeys' hnd' hlen'
        rw [ihres, List.append_assoc, List.singleton_append]
        congr 1
        simp only [List.length_append, List.length_cons, List.length_nil]
        omega
      · have hkeys1 : (s.map ++ [(k, v)]).map Prod.fst = kOld :: restQ := by
          rw [List.map_append, hkeys]
          exact hq
        have hremk : removeKey (s.map ++ [(k, v)]) kOld =
            List.drop 1 (s.map ++ [(k, v)]) := by
          rw [List.drop_one]
          exact removeKey_of_keys_cons _ kOld restQ hkeys1
        have hkeys2 : (List.drop 1 (s.map ++ [(k, v)])).map Prod.fst =
            restQ := by
          rw [List.map_drop, hkeys1]
          rfl
        have hndQ : (kOld :: (restQ ++ rest.map Prod.fst)).Nodup := by
          rw [← List.cons_append, ← hq, List.append_assoc,
            List.singleton_append]
          exact hnd
        have hnd' : (restQ ++ rest.map Prod.fst).Nodup := hndQ.of_cons
        have hlq : s.oldest.length + 1 = restQ.length + 1 := by
          have := congrArg List.length hq
          simpa using this
        have hlen' : restQ.length < s.cap := by omega
        rw [hremk] at heq
        rw [heq]
        have ihres := ih ⟨List.drop 1 (s.map ++ [(k, v)]), restQ, s.cap⟩ hc
          hkeys2 hnd' hlen'
        rw [ihres]
        show List.drop
            ((List.drop 1 (s.map ++ [(k, v)])).length + rest.length + 1 -
              s.cap)
            (List.drop 1 (s.map ++ [(k, v)]) ++ rest) =
          List.drop (s.map.length + ((k, v) :: rest).length + 1 - s.cap)
            (s.map ++ (k, v) :: rest)
        rw [drop_one_append _ rest (by simp), List.drop_drop,
          List.append_assoc, List.singleton_append]
        congr 1
        simp only [List.length_drop, List.length_append, List.length_cons,
          List.length_nil]
        omega

/-! ## The claims -/

/-- C1: for a cache whose queue effectively reserves `c ≥ max(N,1)` slots
(construction with hint `N` reserves at least `N`), after inserting more
than `N` pairwise-distinct keys into a fresh cache, the table and the
queue hold exactly the most recently inserted suffix of the key sequence
(so the oldest-inserted keys were evicted first), and the number of
retrievable keys never exceeds the reserved capacity. -/
theorem insert_distinct_capacity_bound (c N : Nat) (kvs : List (K × V))
    (hc : 1 ≤ c) (hN : N ≤ c) (hnd : (kvs.map Prod.fst).Nodup)
    (hm : N < kvs.length) :
    (insertAll (new c) kvs).map = kvs.drop (kvs.length + 1 - c) ∧
    (insertAll (new c) kvs).oldest =
      (kvs.map Prod.fst).drop (kvs.length + 1 - c) ∧
    (insertAll (new c) kvs).oldest.length ≤ c ∧
    (∀ p ∈ kvs.drop (kvs.length + 1 - c),
        (insertAll (new c) kvs).get p.1 = some p.2) ∧
    (∀ p ∈ kvs.take (kvs.length + 1 - c),
        (insertAll (new c) kvs).get p.1 = none) := by
  have hmap : (insertAll (new c) kvs).map =
      kvs.drop (kvs.length + 1 - c) := by
    have hres := insertAll_fresh kvs (new c) hc rfl
      (by simpa [new] using hnd) (by simp [new]; omega)
    simpa [new] using hres
  have hinv := inv_run c (kvs.map fun p => Op.insert p.1 p.2)
  rw [← insertAll_eq_run] at hinv
  obtain ⟨hkeys, hndq, _⟩ := hinv
  have holdest : (insertAll (new c) kvs).oldest =
      (kvs.map Prod.fst).drop (kvs.length + 1 - c) := by
    rw [← hkeys, hmap, List.map_drop]
  have hlenb : (insertAll (new c) kvs).oldest.length ≤ c := by
    rw [holdest, List.length_drop, List.length_map]
    omega
  have hndkeys : ((insertAll (new c) kvs).map.map Prod.fst).Nodup := by
    rw [hkeys]
    exact hndq
  refine ⟨hmap, holdest, hlenb, ?_, ?_⟩
  · intro p hp
    obtain ⟨k, v⟩ := p
    show mapGet (insertAll (new c) kvs).map k = some v
    exact mem_mapGet _ k v hndkeys (by rw [hmap]; exact hp)
  · intro p hp
    have hsplitnd := hnd
    rw [← List.take_append_drop (kvs.length + 1 - c) (kvs.map Prod.fst),
      List.nodup_append] at hsplitnd
    obtain ⟨_, _, hdisj⟩ := hsplitnd
    have hp1 : p.1 ∈ (kvs.map Prod.fst).take (kvs.length + 1 - c) := by
      rw [← List.map_take]
      exact List.mem_map_of_mem Prod.fst hp
    show mapGet (insertAll (new c) kvs).map p.1 = none
    rw [mapGet_eq_none_iff, hmap, List.map_drop]
    exact fun hcon => hdisj hp1 hcon

theorem insert_distinct_capacity_bound_witness :
    1 ≤ 3 ∧ 3 ≤ 3 ∧
    (([(1, 10), (2, 20), (3, 30), (4, 40)].map Prod.fst :
        List Nat).Nodup) ∧
    3 < ([(1, 10), (2, 20), (3, 30), (4, 40)] : List (Nat × Nat)).length ∧
    ((insertAll (new 3) [(1, 10), (2, 20), (3, 30), (4, 40)] :
        LimitedCache Nat Nat).map =
      ([(1, 10), (2, 20), (3, 30), (4, 40)] : List (Nat × Nat)).drop
        (([(1, 10), (2, 20), (3, 30), (4, 40)] :
          List (Nat × Nat)).length + 1 - 3) ∧
     (insertAll (new 3) [(1, 10), (2, 20), (3, 30), (4, 40)] :
        LimitedCache Nat Nat).oldest =
      (([(1, 10), (2, 20), (3, 30), (4, 40)] :
          List (Nat × Nat)).map Prod.fst).drop
        (([(1, 10), (2, 20), (3, 30), (4, 40)] :
          List (Nat × Nat)).length + 1 - 3) ∧
     (insertAll (new 3) [(1, 10), (2, 20), (3, 30), (4, 40)] :
        LimitedCache Nat Nat).oldest.length ≤ 3 ∧
     (∀ p ∈ ([(1, 10), (2, 20), (3, 30), (4, 40)] : List (Nat × Nat)).drop
          (([(1, 10), (2, 20), (3, 30), (4, 40)] :
            List (Nat × Nat)).length + 1 - 3),
        (insertAll (new 3) [(1, 10), (2, 20), (3, 30), (4, 40)] :
          LimitedCache Nat Nat).get p.1 = some p.2) ∧
     (∀ p ∈ ([(1, 10), (2, 20), (3, 30), (4, 40)] : List (Nat × Nat)).take
          (([(1, 10), (2, 20), (3, 30), (4, 40)] :
            List (Nat × Nat)).length + 1 - 3),
        (insertAll (new 3) [(1, 10), (2, 20), (3, 30), (4, 40)] :
          LimitedCache Nat Nat).get p.1 = none)) :=
  ⟨by decide, by decide, by decide, by decide,
    insert_distinct_capacity_bound 3 3 [(1, 10), (2, 20), (3, 30), (4, 40)]
      (by decide) (by decide) (by decide) (by decide)⟩

/-- C2: at every reachable state (any operation sequence from
construction), a key is retrievable via `get` exactly when it is present
in the order queue, and each key appears at most once in the queue and at
most once in the lookup table. -/
theorem table_queue_agree (c : Nat) (ops : List (Op K V)) (k : K) :
    ((∃ v, (run c ops).get k = some v) ↔ k ∈ (run c ops).oldest) ∧
    (run c ops).oldest.Nodup ∧ ((run c ops).map.map Prod.fst).Nodup := by
  obtain ⟨hkeys, hnd, _⟩ := inv_run c ops
  refine ⟨?_, hnd, by rw [hkeys]; exact hnd⟩
  rw [← hkeys]
  constructor
  · rintro ⟨v, hv⟩
    exact mem_keys_of_mapGet (run c ops).map k v hv
  · intro hk
    exact mapGet_keys_exists (run c ops).map k hk

theorem table_queue_agree_witness :
    ((∃ v, (run 3 [Op.insert 1 10, Op.insert 2 20] :
        LimitedCache Nat Nat).get 1 = some v) ↔
      1 ∈ (run 3 [Op.insert 1 10, Op.insert 2 20] :
        LimitedCache Nat Nat).oldest) ∧
    (run 3 [Op.insert 1 10, Op.insert 2 20] :
      LimitedCache Nat Nat).oldest.Nodup ∧
    ((run 3 [Op.insert 1 10, Op.insert 2 20] :
      LimitedCache Nat Nat).map.map Prod.fst).Nodup :=
  table_queue_agree 3 [Op.insert 1 10, Op.insert 2 20] 1

/-- C4: inserting a key that is already present replaces its value and
changes nothing else: queue, queue length, capacity and the key column of
the table are unchanged (so no eviction happens), every other key reads as
before, and the updated key reads the new value. -/
theorem insert_existing_key_spec (s : LimitedCache K V) (k : K) (v w : V)
    (h : s.get k = some w) :
    (s.insert k v).oldest = s.oldest ∧
    (s.insert k v).oldest.length = s.oldest.length ∧
    (s.insert k v).cap = s.cap ∧
    (s.insert k v).map.map Prod.fst = s.map.map Prod.fst ∧
    (s.insert k v).map.length = s.map.length ∧
    (s.insert k v).get k = some v ∧
    (∀ k', k' ≠ k → (s.insert k v).get k' = s.get k') := by
  have h' : mapGet s.map k = some w := h
  rw [insert_occupied s k v w h']
  refine ⟨rfl, rfl, rfl, keys_replaceValue s.map k v,
    length_replaceValue s.map k v, ?_, ?_⟩
  · show mapGet (replaceValue s.map k v) k = some v
    exact mapGet_replaceValue_self s.map k v
      (mem_keys_of_mapGet s.map k w h')
  · intro k' hk'
    exact mapGet_replaceValue_ne s.map k k' v hk'

theorem insert_existing_key_spec_witness :
    (run 3 [Op.insert 1 10] : LimitedCache Nat Nat).get 1 = some 10 ∧
    (((run 3 [Op.insert 1 10] : LimitedCache Nat Nat).insert 1 99).oldest =
        (run 3 [Op.insert 1 10] : LimitedCache Nat Nat).oldest ∧
      ((run 3 [Op.insert 1 10] :
          LimitedCache Nat Nat).insert 1 99).oldest.length =
        (run 3 [Op.insert 1 10] : LimitedCache Nat Nat).oldest.length ∧
      ((run 3 [Op.insert 1 10] : LimitedCache Nat Nat).insert 1 99).cap =
        (run 3 [Op.insert 1 10] : LimitedCache Nat Nat).cap ∧
      ((run 3 [Op.insert 1 10] :
          LimitedCache Nat Nat).insert 1 99).map.map Prod.fst =
        (run 3 [Op.insert 1 10] : LimitedCache Nat Nat).map.map Prod.fst ∧
      ((run 3 [Op.insert 1 10] :
          LimitedCache Nat Nat).insert 1 99).map.length =
        (run 3 [Op.insert 1 10] : LimitedCache Nat Nat).map.length ∧
      ((run 3 [Op.insert 1 10] : LimitedCache Nat Nat).insert 1 99).get 1 =
        some 99 ∧
      (∀ k', k' ≠ 1 →
        ((run 3 [Op.insert 1 10] : LimitedCache Nat Nat).insert 1 99).get k' =
          (run 3 [Op.insert 1 10] : LimitedCache Nat Nat).get k')) :=
  ⟨by decide, insert_existing_key_spec _ 1 99 10 (by decide)⟩

/-- C6: removing an absent key returns `none` and leaves the whole cache
state (lookup table, order queue and capacity) unchanged. -/
theorem remove_absent_noop (s : LimitedCache K V) (k : K)
    (h : s.get k = none) : s.remove k = (none, s) :=
  remove_miss s k h

theorem remove_absent_noop_witness :
    (run 3 [Op.insert 1 5] : LimitedCache Nat Nat).get 2 = none ∧
    (run 3 [Op.insert 1 5] : LimitedCache Nat Nat).remove 2 =
      (none, (run 3 [Op.insert 1 5] : LimitedCache Nat Nat)) :=
  ⟨by decide, remove_absent_noop _ 2 (by decide)⟩

/-- C7: `get` returns the value stored for the key when present (the pair
is in the table) and `none` exactly when the key is not in the order
queue; as a trace operation it maps the state to itself. -/
theorem get_readonly_spec (c : Nat) (ops : List (Op K V)) (k : K) :
    (∀ v, (run c ops).get k = some v ↔ (k, v) ∈ (run c ops).map) ∧
    ((run c ops).get k = none ↔ k ∉ (run c ops).oldest) ∧
    applyOp (run c ops) (Op.get k) = run c ops := by
  obtain ⟨hkeys, hnd, _⟩ := inv_run c ops
  refine ⟨?_, ?_, rfl⟩
  · intro v
    constructor
    · exact fun h => mapGet_mem (run c ops).map k v h
    · intro h
      exact mem_mapGet (run c ops).map k v (by rw [hkeys]; exact hnd) h
  · rw [← hkeys]
    exact mapGet_eq_none_iff (run c ops).map k

theorem get_readonly_spec_witness :
    (∀ v, (run 3 [Op.insert 1 10] : LimitedCache Nat Nat).get 1 = some v ↔
      (1, v) ∈ (run 3 [Op.insert 1 10] : LimitedCache Nat Nat).map) ∧
    ((run 3 [Op.insert 1 10] : LimitedCache Nat Nat).get 1 = none ↔
      1 ∉ (run 3 [Op.insert 1 10] : LimitedCache Nat Nat).oldest) ∧
    applyOp (run 3 [Op.insert 1 10] : LimitedCache Nat Nat) (Op.get 1) =
      run 3 [Op.insert 1 10] :=
  get_readonly_spec 3 [Op.insert 1 10] 1

/-- C10: with at least one reserved slot, after every completed operation
the order queue's length is strictly below the reserved capacity: the
cache never sits completely full between operations. -/
theorem queue_strictly_below_cap (c : Nat) (ops : List (Op K V))
    (hc : 1 ≤ c) : (run c ops).oldest.length < c := by
  obtain ⟨_, _, hlen⟩ := inv_run c ops
  have h1 : 1 ≤ (run c ops).cap := by rw [cap_run]; exact hc
  have := hlen h1
  rwa [cap_run] at this

theorem queue_strictly_below_cap_witness :
    1 ≤ 3 ∧
    (run 3 [Op.insert 1 10, Op.insert 2 20, Op.insert 3 30] :
      LimitedCache Nat Nat).oldest.length < 3 :=
  ⟨by decide,
    queue_strictly_below_cap 3
      [Op.insert 1 10, Op.insert 2 20, Op.insert 3 30] (by decide)⟩

/-- C3: inserting a key that is not present appends it to the back of the
queue and adds the pair to the table; exactly when the queue's length has
then reached the reserved capacity, the front key is removed from both the
queue and the table; and on an update of an existing key the eviction
check never runs (queue and table size unchanged). -/
theorem insert_new_key_spec (s : LimitedCache K V) (k : K) (v : V)
    (h : s.get k = none) :
    ((s.oldest.length + 1 = s.cap →
        ∃ kOld rest, s.oldest ++ [k] = kOld :: rest ∧
          (s.insert k v).oldest = rest ∧
          (s.insert k v).map = removeKey (s.map ++ [(k, v)]) kOld) ∧
     (s.oldest.length + 1 ≠ s.cap →
        (s.insert k v).oldest = s.oldest ++ [k] ∧
        (s.insert k v).map = s.map ++ [(k, v)])) ∧
    (∀ k' v' w, s.get k' = some w →
        (s.insert k' v').oldest = s.oldest ∧
        (s.insert k' v').map.length = s.map.length) := by
  have h' : mapGet s.map k = none := h
  constructor
  · rcases insert_new_cases s k v h' with ⟨hne, heq⟩ |
      ⟨hcap, kOld, rest, hq, heq⟩
    · exact ⟨fun hcon => absurd hcon hne,
        fun _ => by rw [heq]; exact ⟨rfl, rfl⟩⟩
    · refine ⟨fun _ => ⟨kOld, rest, hq, by rw [heq]; exact ⟨rfl, rfl⟩⟩,
        fun hcon => absurd hcap hcon⟩
  · intro k' v' w hw
    have hw' : mapGet s.map k' = some w := hw
    rw [insert_occupied s k' v' w hw']
    exact ⟨rfl, length_replaceValue s.map k' v'⟩

theorem insert_new_key_spec_witness :
    (run 3 [Op.insert 1 10] : LimitedCache Nat Nat).get 2 = none ∧
    ((((run 3 [Op.insert 1 10] : LimitedCache Nat Nat).oldest.length + 1 =
          (run 3 [Op.insert 1 10] : LimitedCache Nat Nat).cap →
        ∃ kOld rest,
          (run 3 [Op.insert 1 10] : LimitedCache Nat Nat).oldest ++ [2] =
            kOld :: rest ∧
          ((run 3 [Op.insert 1 10] :
            LimitedCache Nat Nat).insert 2 20).oldest = rest ∧
          ((run 3 [Op.insert 1 10] :
            LimitedCache Nat Nat).insert 2 20).map =
            removeKey
              ((run 3 [Op.insert 1 10] :
                LimitedCache Nat Nat).map ++ [(2, 20)]) kOld) ∧
      ((run 3 [Op.insert 1 10] : LimitedCache Nat Nat).oldest.length + 1 ≠
          (run 3 [Op.insert 1 10] : LimitedCache Nat Nat).cap →
        ((run 3 [Op.insert 1 10] :
          LimitedCache Nat Nat).insert 2 20).oldest =
          (run 3 [Op.insert 1 10] : LimitedCache Nat Nat).oldest ++ [2] ∧
        ((run 3 [Op.insert 1 10] : LimitedCache Nat Nat).insert 2 20).map =
          (run 3 [Op.insert 1 10] :
            LimitedCache Nat Nat).map ++ [(2, 20)])) ∧
     (∀ k' v' w,
        (run 3 [Op.insert 1 10] : LimitedCache Nat Nat).get k' = some w →
        ((run 3 [Op.insert 1 10] :
          LimitedCache Nat Nat).insert k' v').oldest =
          (run 3 [Op.insert 1 10] : LimitedCache Nat Nat).oldest ∧
        ((run 3 [Op.insert 1 10] :
          LimitedCache Nat Nat).insert k' v').map.length =
          (run 3 [Op.insert 1 10] : LimitedCache Nat Nat).map.length)) :=
  ⟨by decide, insert_new_key_spec _ 2 20 (by decide)⟩

/-- C5: removing a present key returns its value, deletes it from the
table (it no longer reads back, all other keys read as before), and
removes exactly that key from the order queue, preserving the relative
order of the remaining keys. -/
theorem remove_present_spec (s : LimitedCache K V) (k : K) (v : V)
    (hr : Reachable s) (h : s.get k = some v) :
    (s.remove k).1 = some v ∧
    (s.remove k).2.get k = none ∧
    (∀ k', k' ≠ k → (s.remove k).2.get k' = s.get k') ∧
    (∃ pre post, s.oldest = pre ++ k :: post ∧
       (s.remove k).2.oldest = pre ++ post ∧ k ∉ pre ∧ k ∉ post) := by
  obtain ⟨hkeys, hnd, _⟩ := inv_reachable s hr
  have h' : mapGet s.map k = some v := h
  rw [remove_hit s k v h']
  refine ⟨rfl, ?_, ?_, ?_⟩
  · show mapGet (removeKey s.map k) k = none
    rw [mapGet_eq_none_iff, keys_removeKey, hkeys]
    exact not_mem_removeFirst s.oldest k hnd
  · intro k' hk'
    exact mapGet_removeKey_ne s.map k k' hk'
  · have hk : k ∈ s.oldest := by
      rw [← hkeys]
      exact mem_keys_of_mapGet s.map k v h'
    rcases List.append_of_mem hk with ⟨pre, post, hsplit⟩
    have hnd2 : (pre ++ k :: post).Nodup := by rw [← hsplit]; exact hnd
    rw [List.nodup_append] at hnd2
    have hpre : k ∉ pre := fun hc => hnd2.2.2 hc (List.mem_cons_self k post)
    have hpost : k ∉ post := (List.nodup_cons.mp hnd2.2.1).1
    refine ⟨pre, post, hsplit, ?_, hpre, hpost⟩
    show removeFirst s.oldest k = pre ++ post
    rw [hsplit, removeFirst_append_cons pre post k hpre]

theorem remove_present_spec_witness :
    Reachable (run 3 [Op.insert 1 10, Op.insert 2 20] :
      LimitedCache Nat Nat) ∧
    (run 3 [Op.insert 1 10, Op.insert 2 20] :
      LimitedCache Nat Nat).get 1 = some 10 ∧
    (((run 3 [Op.insert 1 10, Op.insert 2 20] :
        LimitedCache Nat Nat).remove 1).1 = some 10 ∧
     ((run 3 [Op.insert 1 10, Op.insert 2 20] :
        LimitedCache Nat Nat).remove 1).2.get 1 = none ∧
     (∀ k', k' ≠ 1 →
        ((run 3 [Op.insert 1 10, Op.insert 2 20] :
          LimitedCache Nat Nat).remove 1).2.get k' =
          (run 3 [Op.insert 1 10, Op.insert 2 20] :
            LimitedCache Nat Nat).get k') ∧
     (∃ pre post,
        (run 3 [Op.insert 1 10, Op.insert 2 20] :
          LimitedCache Nat Nat).oldest = pre ++ 1 :: post ∧
        ((run 3 [Op.insert 1 10, Op.insert 2 20] :
          LimitedCache Nat Nat).remove 1).2.oldest = pre ++ post ∧
        1 ∉ pre ∧ 1 ∉ post)) :=
  ⟨⟨3, [Op.insert 1 10, Op.insert 2 20], rfl⟩, by decide,
    remove_present_spec _ 1 10
      ⟨3, [Op.insert 1 10, Op.insert 2 20], rfl⟩ (by decide)⟩

/-- C8: with at least one reserved slot, the queue's reserved capacity
after any operation sequence is still the construction-time capacity, and
no insert can force the queue's backing storage to grow: a push happens
only for a new key, and the queue is then strictly below capacity because
eviction freed a slot first. -/
theorem no_queue_realloc (c : Nat) (ops : List (Op K V)) (k : K)
    (hc : 1 ≤ c) :
    (run c ops).cap = c ∧ ¬ insertForcesGrow (run c ops) k := by
  refine ⟨cap_run c ops, ?_⟩
  rintro ⟨_, hfull⟩
  obtain ⟨_, _, hlen⟩ := inv_run c ops
  have h1 : 1 ≤ (run c ops).cap := by rw [cap_run]; exact hc
  have := hlen h1
  omega

theorem no_queue_realloc_witness :
    1 ≤ 2 ∧
    ((run 2 [Op.insert 1 5, Op.insert 2 6] :
        LimitedCache Nat Nat).cap = 2 ∧
      ¬ insertForcesGrow
          (run 2 [Op.insert 1 5, Op.insert 2 6] : LimitedCache Nat Nat) 9) :=
  ⟨by decide, no_queue_realloc 2 [Op.insert 1 5, Op.insert 2 6] 9 (by decide)⟩

/-- C9: a cache whose queue reserved capacity is 1 evicts every new key
immediately on insertion, so nothing is ever retrievable; with reserved
capacity at least 2, a key just inserted is always retrievable with the
inserted value. -/
theorem cap_one_cap_two_insert_get (ops : List (Op K V)) (k : K) (v : V) :
    (((run 1 ops).insert k v).get k = none ∧
      (∀ k', (run 1 ops).get k' = none)) ∧
    (∀ c, 2 ≤ c → ((run c ops).insert k v).get k = some v) := by
  constructor
  · obtain ⟨hkeys, _, hlen⟩ := inv_run 1 ops
    have hcap : (run 1 ops).cap = 1 := cap_run 1 ops
    have hlen1 : (run 1 ops).oldest.length < 1 := by
      have h1 : 1 ≤ (run 1 ops).cap := by rw [hcap]
      have := hlen h1
      rwa [hcap] at this
    have holdest : (run 1 ops).oldest = [] :=
      List.length_eq_zero.mp (by omega)
    have hmapnil : (run 1 ops).map = [] := by
      have h2 := hkeys
      rw [holdest] at h2
      exact List.map_eq_nil_iff.mp h2
    have hgetnone : ∀ k' : K, (run 1 ops).get k' = none := by
      intro k'
      show mapGet (run 1 ops).map k' = none
      rw [hmapnil]
      rfl
    refine ⟨?_, hgetnone⟩
    have hmk : mapGet (run 1 ops).map k = none := hgetnone k
    rcases insert_new_cases (run 1 ops) k v hmk with ⟨hne, _⟩ |
      ⟨_, kOld, rest, hq, heq⟩
    · exact absurd (by rw [holdest, hcap]; rfl) hne
    · rw [holdest, List.nil_append] at hq
      injection hq with h1 h2
      subst h1
      subst h2
      rw [heq]
      show mapGet (removeKey ((run 1 ops).map ++ [(k, v)]) k) k = none
      rw [hmapnil, List.nil_append]
      simp [removeKey, mapGet]
  · intro c hc
    obtain ⟨hkeys, _, _⟩ := inv_run c ops
    have hcap : (run c ops).cap = c := cap_run c ops
    cases hmk : mapGet (run c ops).map k with
    | some w =>
        rw [insert_occupied (run c ops) k v w hmk]
        show mapGet (replaceValue (run c ops).map k v) k = some v
        exact mapGet_replaceValue_self _ k v (mem_keys_of_mapGet _ k w hmk)
    | none =>
        have hknotin : k ∉ (run c ops).oldest := by
          rw [← hkeys]
          exact (mapGet_eq_none_iff _ k).mp hmk
        rcases insert_new_cases (run c ops) k v hmk with ⟨_, heq⟩ |
          ⟨hcap1, kOld, rest, hq, heq⟩
        · rw [heq]
          show mapGet ((run c ops).map ++ [(k, v)]) k = some v
          rw [mapGet_append_right _ _ k hmk]
          simp [mapGet]
        · cases holdq : (run c ops).oldest with
          | nil =>
              rw [holdq, hcap] at hcap1
              simp only [List.length_nil] at hcap1
              omega
          | cons h0 t =>
              have hkOldmem : kOld ∈ (run c ops).oldest := by
                rw [holdq] at hq
                rw [List.cons_append] at hq
                injection hq with hq1 _
                rw [holdq, ← hq1]
                exact List.mem_cons_self h0 _
              have hne : k ≠ kOld := fun he => hknotin (he ▸ hkOldmem)
              rw [heq]
              show mapGet (removeKey ((run c ops).map ++ [(k, v)]) kOld) k =
                some v
              rw [mapGet_removeKey_ne _ kOld k hne]
              rw [mapGet_append_right _ _ k hmk]
              simp [mapGet]

theorem cap_one_cap_two_insert_get_witness :
    ((((run 1 [Op.insert 5 7] : LimitedCache Nat Nat).insert 3 42).get 3 =
        none ∧
      (run 1 [Op.insert 5 7] : LimitedCache Nat Nat).get 5 = none) ∧
     (2 ≤ 2 ∧
      (((run 2 [Op.insert 5 7] : LimitedCache Nat Nat).insert 3 42).get 3 =
        some 42))) :=
  ⟨⟨(cap_one_cap_two_insert_get [Op.insert 5 7] 3 42).1.1,
    (cap_one_cap_two_insert_get [Op.insert 5 7] 3 42).1.2 5⟩,
   by decide,
   (cap_one_cap_two_insert_get [Op.insert 5 7] 3 42).2 2 (by decide)⟩

end LimitedCache
